import Mathlib

/-!
# BCH-Quantum-Wallet: verification of the encoding and vault-derivation core

Shallow embedding of `src/NODEJS_Quantum_Version/server.js` (both variants).
Byte sequences are `List Nat` (each element a byte value).  JavaScript
bitwise operators work on 32-bit two's-complement integers: `&`, `|`, `^`,
`<<` convert their operands with ToInt32, `>>>` with ToUint32, and shift
counts are taken modulo 32.  We represent every JS 32-bit intermediate by
its unsigned bit pattern (a `Nat` below `2^32`); this is faithful because
`&,|,^,<<,>>>,>>` and the `!== 0` truthiness test depend only on the bit
pattern.  The helpers below implement exactly those operator semantics.
-/

/-- `2^32`, the modulus of JavaScript's 32-bit bitwise-operator arithmetic. -/
def U32 : Nat := 4294967296

/-- The unsigned 32-bit bit pattern of a nonnegative JS number (ToUint32,
and also the bit pattern produced by ToInt32). -/
def toU32 (n : Nat) : Nat := n % U32

/-- JS `a & b` (result as unsigned bit pattern). -/
def jsAnd (a b : Nat) : Nat := toU32 a &&& toU32 b

/-- JS `a | b` (result as unsigned bit pattern). -/
def jsOr (a b : Nat) : Nat := toU32 a ||| toU32 b

/-- JS `a ^ b` (result as unsigned bit pattern). -/
def jsXor (a b : Nat) : Nat := toU32 a ^^^ toU32 b

/-- JS `a << k`: shift count mod 32, result truncated to 32 bits. -/
def jsShl (a k : Nat) : Nat := toU32 (toU32 a <<< (k % 32))

/-- JS `a >>> k`: unsigned (logical) right shift, count mod 32. -/
def jsShrU (a k : Nat) : Nat := toU32 a >>> (k % 32)

/-- JS `a >> k`: signed (arithmetic) right shift of the ToInt32 value,
count mod 32, result as unsigned bit pattern.  When the sign bit is set the
vacated high bits are filled with ones. -/
def jsShrS (a k : Nat) : Nat :=
  if toU32 a < 2147483648 then toU32 a >>> (k % 32)
  else toU32 a >>> (k % 32) + (U32 - 2 ^ (32 - k % 32))

/-- The signed (ToInt32) reading of an unsigned 32-bit pattern. -/
def i32 (p : Nat) : Int := if toU32 p < 2147483648 then (toU32 p : Int) else (toU32 p : Int) - (U32 : Int)

/-- JS `(1 << toBits) - 1`, as the unsigned bit pattern the `&` operator
sees: the shift is a 32-bit shift, the subtraction is exact number
arithmetic, and `&` then applies ToInt32 to the (possibly negative)
result. -/
def jsMaxv (toBits : Nat) : Nat := ((i32 (jsShl 1 toBits) - 1) % (U32 : Int)).toNat

/-- The big-endian value of a list of `w`-bit groups: the bit stream of
`data` read as one natural number (reference notion used to specify
`convertBits`). -/
def streamVal (w : Nat) (data : List Nat) : Nat :=
  data.foldl (fun a v => a * 2 ^ w + v) 0

/-- Structural core of `emitLoop`, recursing on a fuel argument so the
definition evaluates by kernel reduction.  Each iteration removes
`toBits ≥ 1` pending bits, so `bits` itself is enough fuel. -/
def emitLoop.go (toBits acc : Nat) : Nat → Nat → List Nat × Nat
  | 0, bits => ([], bits)
  | fuel + 1, bits =>
    if toBits ≤ bits ∧ 0 < toBits then
      let bits' := bits - toBits
      let g := jsAnd (jsShrS acc bits') (jsMaxv toBits)
      let r := emitLoop.go toBits acc fuel bits'
      (g :: r.1, r.2)
    else ([], bits)

/-- `emitLoop toBits acc bits` — the inner `while (bits >= toBits)` loop of
`convertBits` (`server.js` lines 67–70): repeatedly decrement `bits` by
`toBits` and emit `(acc >> bits) & maxv`.  Returns the emitted groups and
the final `bits`.  (For `toBits = 0` the JS loop would not terminate; the
model's fuel then runs out instead, and every theorem that touches this
loop assumes `0 < toBits`.) -/
def emitLoop (toBits acc bits : Nat) : List Nat × Nat :=
  emitLoop.go toBits acc bits bits

/-- The main `for (value of data)` loop of `convertBits` (`server.js`
lines 63–71) together with the post-loop padding / no-pad check
(lines 72–76).  State: remaining input, accumulator bit pattern, pending
bit count, groups emitted so far.  `none` models `return null`. -/
def convertBits.go (fromBits toBits : Nat) (pad : Bool) :
    List Nat → Nat → Nat → List Nat → Option (List Nat)
  | [], acc, bits, ret =>
    if pad then
      if 0 < bits then some (ret ++ [jsAnd (jsShl acc (toBits - bits)) (jsMaxv toBits)])
      else some ret
    else if fromBits ≤ bits ∨ jsAnd (jsShl acc (toBits - bits)) (jsMaxv toBits) ≠ 0 then none
    else some ret
  | value :: rest, acc, bits, ret =>
    -- `value < 0` cannot occur for the unsigned integers modelled here.
    if jsShrS value fromBits ≠ 0 then none
    else
      let acc' := jsOr (jsShl acc fromBits) value
      let e := emitLoop toBits acc' (bits + fromBits)
      convertBits.go fromBits toBits pad rest acc' e.2 (ret ++ e.1)

/-- `convertBits(data, fromBits, toBits, pad)` — `server.js` lines 58–78:
generic re-grouping of `fromBits`-bit groups into `toBits`-bit groups. -/
def convertBits (data : List Nat) (fromBits toBits : Nat) (pad : Bool) : Option (List Nat) :=
  convertBits.go fromBits toBits pad data 0 0 []

/-- One step of the `polyMod` loop (`server.js` lines 84–92), with exact
JS 32-bit operator semantics: `c >>> 35` shifts by `35 % 32 = 3`, the mask
`0x07ffffffff` is truncated by ToInt32 to `-1` (so the `&` is the identity
on the 32-bit pattern), the five 40-bit generator constants are truncated
to their low 32 bits by `^`. -/
def polyModStep (c d : Nat) : Nat :=
  let c0 := jsShrU c 35
  let c1 := jsXor (jsShl (jsAnd c 0x07ffffffff) 5) d
  let c2 := if jsAnd c0 0x01 ≠ 0 then jsXor c1 0x98f2bc8e61 else c1
  let c3 := if jsAnd c0 0x02 ≠ 0 then jsXor c2 0x79b76d99e2 else c2
  let c4 := if jsAnd c0 0x04 ≠ 0 then jsXor c3 0xf33e5fb3c4 else c3
  let c5 := if jsAnd c0 0x08 ≠ 0 then jsXor c4 0xae2eabe2a8 else c4
  if jsAnd c0 0x10 ≠ 0 then jsXor c5 0x1e4f43e470 else c5

/-- `polyMod(data)` — `server.js` lines 82–94, as the enclosed JS engine
actually computes it (32-bit truncated arithmetic). -/
def polyMod (data : List Nat) : Nat := jsXor (data.foldl polyModStep 1) 1

/-- Prefix expansion (`server.js` lines 97–99): each prefix character's
code unit masked to its low 5 bits, followed by a zero separator group. -/
def hrpExpand (pre : String) : List Nat :=
  (pre.data.map fun ch => jsAnd ch.toNat 0x1f) ++ [0]

/-- `calculateChecksum(prefix, payload)` — `server.js` lines 80–109: run
`polyMod` over `expanded prefix ‖ payload ‖ eight zero groups`, then take
eight groups `(polymod >>> (5*(7-i))) & 0x1f` for `i = 0..7` (with JS
shift-count truncation, `>>> 35` is `>>> 3`). -/
def calculateChecksum (pre : String) (payload : List Nat) : List Nat :=
  let checksumData := hrpExpand pre ++ payload ++ [0, 0, 0, 0, 0, 0, 0, 0]
  let pm := polyMod checksumData
  (List.range 8).map fun i => jsAnd (jsShrU pm (5 * (7 - i))) 0x1f

/-- The 32-character base-32 alphabet of `toCashAddress`
(`server.js` line 50). -/
def CHARSET : List Char :=
  ['q', 'p', 'z', 'r', 'y', '9', 'x', '8', 'g', 'f', '2', 't', 'v', 'd', 'w', '0',
   's', '3', 'j', 'n', '5', '4', 'k', 'h', 'c', 'e', '6', 'm', 'u', 'a', '7', 'l']

/-- `CHARSET[val]` appended to a JS string: the character for `val < 32`;
for out-of-range `val` JS indexing yields `undefined` and `+=` appends the
text `"undefined"`. -/
def charsetAt (val : Nat) : String :=
  if val < 32 then String.singleton (CHARSET.getD val 'q') else "undefined"

/-- `toCashAddress(hash160Buffer, type)` — `server.js` lines 33–56.
`none` models the TypeError thrown when `convertBits` returns `null` and
the code calls `.concat` on it. -/
def toCashAddress (hash160 : List Nat) (type : String) : Option String :=
  let pre := "bitcoincash"
  let typeByte := if type = "p2sh" then 0x08 else 0x00
  let payload := typeByte :: hash160
  match convertBits payload 8 5 true with
  | none => none
  | some payload5 =>
    let checksum := calculateChecksum pre payload5
    let combined := payload5 ++ checksum
    some ((combined.foldl (fun s v => s ++ charsetAt v) (pre ++ ":")))

/-- Modelled from the spec (§4.2 steps 3–4): the polynomial evaluation with
a true 40-bit accumulator — `c0` the top five bits (35–39), the masked
accumulator shifted left five, the five full 40-bit generator constants.
The repository's decode side does not exist in `src/`; this is the
reference evaluation the checksum invariant (C1) is stated against. -/
def specPolyModStep (c d : Nat) : Nat :=
  let c0 := c >>> 35
  let c1 := Nat.xor ((Nat.land c 0x07ffffffff) <<< 5) d
  let c2 := if Nat.land c0 0x01 ≠ 0 then Nat.xor c1 0x98f2bc8e61 else c1
  let c3 := if Nat.land c0 0x02 ≠ 0 then Nat.xor c2 0x79b76d99e2 else c2
  let c4 := if Nat.land c0 0x04 ≠ 0 then Nat.xor c3 0xf33e5fb3c4 else c3
  let c5 := if Nat.land c0 0x08 ≠ 0 then Nat.xor c4 0xae2eabe2a8 else c4
  if Nat.land c0 0x10 ≠ 0 then Nat.xor c5 0x1e4f43e470 else c5

/-- Modelled from the spec (§4.2): 40-bit polynomial over the data with
seed 1 and final `xor 1`. -/
def specPolyMod (data : List Nat) : Nat := Nat.xor (data.foldl specPolyModStep 1) 1


/-! ## Hash primitives

The source delegates hashing to Node's `crypto` module
(`crypto.createHash('sha256')`, `crypto.createHash('ripemd160')`), whose
code is not part of the repository.  Modelled from the spec: standard
SHA-256 (FIPS 180-4) and standard RIPEMD-160, over byte lists. -/

/-- 32-bit left rotation (operands below `2^32`). -/
def rotl32 (x n : Nat) : Nat := ((x <<< n) % U32) + (x >>> (32 - n))

/-- 32-bit right rotation (operands below `2^32`). -/
def rotr32 (x n : Nat) : Nat := (x >>> n) + ((x <<< (32 - n)) % U32)

/-- Big-endian bytes of a 32-bit word. -/
def be32 (w : Nat) : List Nat :=
  [w >>> 24 % 256, w >>> 16 % 256, w >>> 8 % 256, w % 256]

/-- Little-endian bytes of a 32-bit word. -/
def le32 (w : Nat) : List Nat :=
  [w % 256, w >>> 8 % 256, w >>> 16 % 256, w >>> 24 % 256]

/-- Big-endian bytes of a 64-bit length field. -/
def be64 (n : Nat) : List Nat :=
  [n >>> 56 % 256, n >>> 48 % 256, n >>> 40 % 256, n >>> 32 % 256,
   n >>> 24 % 256, n >>> 16 % 256, n >>> 8 % 256, n % 256]

/-- Little-endian bytes of a 64-bit length field. -/
def le64 (n : Nat) : List Nat :=
  [n % 256, n >>> 8 % 256, n >>> 16 % 256, n >>> 24 % 256,
   n >>> 32 % 256, n >>> 40 % 256, n >>> 48 % 256, n >>> 56 % 256]

/-- Group a byte list into big-endian 32-bit words (length a multiple
of 4 after padding). -/
def wordsBE : List Nat → List Nat
  | b0 :: b1 :: b2 :: b3 :: rest => (((b0 * 256 + b1) * 256 + b2) * 256 + b3) :: wordsBE rest
  | _ => []

/-- Group a byte list into little-endian 32-bit words. -/
def wordsLE : List Nat → List Nat
  | b0 :: b1 :: b2 :: b3 :: rest => (((b3 * 256 + b2) * 256 + b1) * 256 + b0) :: wordsLE rest
  | _ => []

/-- Structural core of `chunks16` (fuel-recursive so that it evaluates
by kernel reduction; the list length is enough fuel). -/
def chunks16.go : Nat → List Nat → List (List Nat)
  | 0, _ => []
  | _, [] => []
  | fuel + 1, w :: ws => ((w :: ws).take 16) :: chunks16.go fuel ((w :: ws).drop 16)

/-- Split a word list into 16-word blocks. -/
def chunks16 (ws : List Nat) : List (List Nat) := chunks16.go ws.length ws

/-- Merkle–Damgård padding: `0x80`, zeros to 56 mod 64, then the message
bit length on 8 bytes (`lenBytes` chooses the endianness). -/
def mdPad (lenBytes : Nat → List Nat) (msg : List Nat) : List Nat :=
  msg ++ 0x80 :: List.replicate ((119 - msg.length % 64) % 64) 0 ++ lenBytes (8 * msg.length)

/-- The SHA-256 round constants. -/
def sha256K : List Nat :=
  [
   1116352408, 1899447441, 3049323471, 3921009573, 961987163, 1508970993,
   2453635748, 2870763221, 3624381080, 310598401, 607225278, 1426881987,
   1925078388, 2162078206, 2614888103, 3248222580, 3835390401, 4022224774,
   264347078, 604807628, 770255983, 1249150122, 1555081692, 1996064986,
   2554220882, 2821834349, 2952996808, 3210313671, 3336571891, 3584528711,
   113926993, 338241895, 666307205, 773529912, 1294757372, 1396182291,
   1695183700, 1986661051, 2177026350, 2456956037, 2730485921, 2820302411,
   3259730800, 3345764771, 3516065817, 3600352804, 4094571909, 275423344,
   430227734, 506948616, 659060556, 883997877, 958139571, 1322822218,
   1537002063, 1747873779, 1955562222, 2024104815, 2227730452, 2361852424,
   2428436474, 2756734187, 3204031479, 3329325298]

/-- The SHA-256 initial hash state. -/
def sha256H0 : List Nat :=
  [
   1779033703, 3144134277, 1013904242, 2773480762, 1359893119, 2600822924,
   528734635, 1541459225]

/-- SHA-256 small sigma 0. -/
def ssig0 (x : Nat) : Nat := Nat.xor (Nat.xor (rotr32 x 7) (rotr32 x 18)) (x >>> 3)

/-- SHA-256 small sigma 1. -/
def ssig1 (x : Nat) : Nat := Nat.xor (Nat.xor (rotr32 x 17) (rotr32 x 19)) (x >>> 10)

/-- SHA-256 big sigma 0. -/
def bsig0 (x : Nat) : Nat := Nat.xor (Nat.xor (rotr32 x 2) (rotr32 x 13)) (rotr32 x 22)

/-- SHA-256 big sigma 1. -/
def bsig1 (x : Nat) : Nat := Nat.xor (Nat.xor (rotr32 x 6) (rotr32 x 11)) (rotr32 x 25)

/-- 32-bit complement. -/
def not32 (x : Nat) : Nat := Nat.xor x 4294967295

/-- Extend the message schedule, kept in reverse (most recent word
first), by `n` further words. -/
def sha256ExtendRev (ws : List Nat) : Nat → List Nat
  | 0 => ws
  | n + 1 =>
    sha256ExtendRev
      ((ssig1 (ws.getD 1 0) + ws.getD 6 0 + ssig0 (ws.getD 14 0) + ws.getD 15 0) % U32 :: ws) n

/-- One SHA-256 compression round on the state `[a,b,c,d,e,f,g,h]`, fed
one `(K, W)` pair. -/
def sha256Round (st : List Nat) (kw : Nat × Nat) : List Nat :=
  let a := st.getD 0 0
  let b := st.getD 1 0
  let c := st.getD 2 0
  let d := st.getD 3 0
  let e := st.getD 4 0
  let f := st.getD 5 0
  let g := st.getD 6 0
  let h := st.getD 7 0
  let ch := Nat.xor (Nat.land e f) (Nat.land (not32 e) g)
  let maj := Nat.xor (Nat.xor (Nat.land a b) (Nat.land a c)) (Nat.land b c)
  let t1 := (h + bsig1 e + ch + kw.1 + kw.2) % U32
  let t2 := (bsig0 a + maj) % U32
  [(t1 + t2) % U32, a, b, c, (d + t1) % U32, e, f, g]

/-- SHA-256 compression of one 16-word block into the running state. -/
def sha256Compress (hs block : List Nat) : List Nat :=
  let w := (sha256ExtendRev block.reverse 48).reverse
  let st := (sha256K.zip w).foldl sha256Round hs
  (hs.zip st).map fun p => (p.1 + p.2) % U32

/-- Modelled from the spec: standard SHA-256 of a byte list (the source
calls `crypto.createHash('sha256')`, which is not in the repository). -/
def sha256 (msg : List Nat) : List Nat :=
  let hs := (chunks16 (wordsBE (mdPad be64 msg))).foldl sha256Compress sha256H0
  hs.foldr (fun w acc => be32 w ++ acc) []

/-- RIPEMD-160 message-word permutation, left line. -/
def rmdRL : List Nat :=
  [0, 1, 2, 3, 4, 5, 6, 7, 8, 9, 10, 11, 12, 13, 14, 15,
   7, 4, 13, 1, 10, 6, 15, 3, 12, 0, 9, 5, 2, 14, 11, 8,
   3, 10, 14, 4, 9, 15, 8, 1, 2, 7, 0, 6, 13, 11, 5, 12,
   1, 9, 11, 10, 0, 8, 12, 4, 13, 3, 7, 15, 14, 5, 6, 2,
   4, 0, 5, 9, 7, 12, 2, 10, 14, 1, 3, 8, 11, 6, 15, 13]

/-- RIPEMD-160 message-word permutation, right line. -/
def rmdRR : List Nat :=
  [5, 14, 7, 0, 9, 2, 11, 4, 13, 6, 15, 8, 1, 10, 3, 12,
   6, 11, 3, 7, 0, 13, 5, 10, 14, 15, 8, 12, 4, 9, 1, 2,
   15, 5, 1, 3, 7, 14, 6, 9, 11, 8, 12, 2, 10, 0, 4, 13,
   8, 6, 4, 1, 3, 11, 15, 0, 5, 12, 2, 13, 9, 7, 10, 14,
   12, 15, 10, 4, 1, 5, 8, 7, 6, 2, 13, 14, 0, 3, 9, 11]

/-- RIPEMD-160 rotation amounts, left line. -/
def rmdSL : List Nat :=
  [11, 14, 15, 12, 5, 8, 7, 9, 11, 13, 14, 15, 6, 7, 9, 8,
   7, 6, 8, 13, 11, 9, 7, 15, 7, 12, 15, 9, 11, 7, 13, 12,
   11, 13, 6, 7, 14, 9, 13, 15, 14, 8, 13, 6, 5, 12, 7, 5,
   11, 12, 14, 15, 14, 15, 9, 8, 9, 14, 5, 6, 8, 6, 5, 12,
   9, 15, 5, 11, 6, 8, 13, 12, 5, 12, 13, 14, 11, 8, 5, 6]

/-- RIPEMD-160 rotation amounts, right line. -/
def rmdSR : List Nat :=
  [8, 9, 9, 11, 13, 15, 15, 5, 7, 7, 8, 11, 14, 14, 12, 6,
   9, 13, 15, 7, 12, 8, 9, 11, 7, 7, 12, 7, 6, 15, 13, 11,
   9, 7, 15, 11, 8, 6, 6, 14, 12, 13, 5, 14, 13, 13, 7, 5,
   15, 5, 8, 11, 14, 14, 6, 14, 6, 9, 12, 9, 12, 5, 15, 8,
   8, 5, 12, 9, 12, 5, 14, 6, 8, 13, 6, 5, 15, 13, 11, 11]

/-- RIPEMD-160 nonlinear function for round `j`. -/
def rmdF (j x y z : Nat) : Nat :=
  if j < 16 then Nat.xor (Nat.xor x y) z
  else if j < 32 then Nat.lor (Nat.land x y) (Nat.land (not32 x) z)
  else if j < 48 then Nat.xor (Nat.lor x (not32 y)) z
  else if j < 64 then Nat.lor (Nat.land x z) (Nat.land y (not32 z))
  else Nat.xor x (Nat.lor y (not32 z))

/-- RIPEMD-160 round constant for round `j`, left line. -/
def rmdKL (j : Nat) : Nat :=
  if j < 16 then 0 else if j < 32 then 0x5a827999 else if j < 48 then 0x6ed9eba1
  else if j < 64 then 0x8f1bbcdc else 0xa953fd4e

/-- RIPEMD-160 round constant for round `j`, right line. -/
def rmdKR (j : Nat) : Nat :=
  if j < 16 then 0x50a28be6 else if j < 32 then 0x5c4dd124 else if j < 48 then 0x6d703ef3
  else if j < 64 then 0x7a6d76e9 else 0

/-- One RIPEMD-160 line step: state `[a,b,c,d,e]`, word `x`, round
constant `k`, rotation `s`. -/
def rmdStep (st : List Nat) (j x k s : Nat) : List Nat :=
  let a := st.getD 0 0
  let b := st.getD 1 0
  let c := st.getD 2 0
  let d := st.getD 3 0
  let e := st.getD 4 0
  let t := (rotl32 ((a + rmdF j b c d + x + k) % U32) s + e) % U32
  [e, t, b, rotl32 c 10, d]

/-- Run one RIPEMD-160 line (left or right) for 80 rounds over block
`x`; `fj` is the round index fed to the nonlinear function (`j` on the
left line, `79 - j` on the right line). -/
def rmdLine (x : List Nat) (rj sj : List Nat) (kj fj : Nat → Nat) (st : List Nat) : List Nat :=
  (List.range 80).foldl (fun s j => rmdStep s (fj j) (x.getD (rj.getD j 0) 0) (kj j) (sj.getD j 0)) st

/-- RIPEMD-160 compression of one 16-word block. -/
def rmdCompress (hs block : List Nat) : List Nat :=
  let l := rmdLine block rmdRL rmdSL rmdKL (fun j => j) hs
  let r := rmdLine block rmdRR rmdSR rmdKR (fun j => 79 - j) hs
  [(hs.getD 1 0 + l.getD 2 0 + r.getD 3 0) % U32,
   (hs.getD 2 0 + l.getD 3 0 + r.getD 4 0) % U32,
   (hs.getD 3 0 + l.getD 4 0 + r.getD 0 0) % U32,
   (hs.getD 4 0 + l.getD 0 0 + r.getD 1 0) % U32,
   (hs.getD 0 0 + l.getD 1 0 + r.getD 2 0) % U32]

/-- The RIPEMD-160 initial state. -/
def rmdH0 : List Nat := [1732584193, 4023233417, 2562383102, 271733878, 3285377520]

/-- Modelled from the spec: standard RIPEMD-160 of a byte list (the
source calls `crypto.createHash('ripemd160')`, which is not in the
repository). -/
def ripemd160 (msg : List Nat) : List Nat :=
  let hs := (chunks16 (wordsLE (mdPad le64 msg))).foldl rmdCompress rmdH0
  hs.foldr (fun w acc => le32 w ++ acc) []

/-! ## Hex encoding and decoding (Node `Buffer` semantics) -/

/-- Lowercase hex digit for a value below 16. -/
def hexDigit (n : Nat) : Char := "0123456789abcdef".data.getD n '0'

/-- `buffer.toString('hex')`: two lowercase digits per byte. -/
def bytesToHex (bs : List Nat) : String :=
  String.mk (bs.foldr (fun b acc => hexDigit (b / 16 % 16) :: hexDigit (b % 16) :: acc) [])

/-- Value of one hex digit character (`0-9a-fA-F`), `none` for a non-hex
character. -/
def hexVal : Char → Option Nat
  | '0' => .some 0x0
  | '1' => .some 0x1
  | '2' => .some 0x2
  | '3' => .some 0x3
  | '4' => .some 0x4
  | '5' => .some 0x5
  | '6' => .some 0x6
  | '7' => .some 0x7
  | '8' => .some 0x8
  | '9' => .some 0x9
  | 'a' => .some 0xa
  | 'b' => .some 0xb
  | 'c' => .some 0xc
  | 'd' => .some 0xd
  | 'e' => .some 0xe
  | 'f' => .some 0xf
  | 'A' => .some 0xa
  | 'B' => .some 0xb
  | 'C' => .some 0xc
  | 'D' => .some 0xd
  | 'E' => .some 0xe
  | 'F' => .some 0xf
  | _ => .none

/-- `Buffer.from(string, 'hex')` (Node semantics): decode hex digit
pairs; stop — without error — at the first invalid pair or lone trailing
digit.  In particular it never throws for a string argument. -/
def hexDecodeList : List Char → List Nat
  | c1 :: c2 :: rest =>
    match hexVal c1, hexVal c2 with
    | some hi, some lo => (16 * hi + lo) :: hexDecodeList rest
    | _, _ => []
  | _ => []

/-- `Buffer.from(string, 'hex')` on a Lean string. -/
def hexDecode (s : String) : List Nat := hexDecodeList s.data


/-! ## Vault derivation and the API handlers

`createQuantumVault` and the two `/api/sweep` variants.  Randomness
(`crypto.randomBytes`) and the external wallet service (`mainnet-js`) are
not part of the repository; they enter the model as explicit parameters:
the random bytes drawn, and a balance oracle `svc` mapping the string
handed to the wallet library to the balance (in satoshis) the external
service reports. -/

/-- The response object of `createQuantumVault` (`server.js`
lines 133–138): all four fields hex/text strings. -/
structure Vault where
  secret : String
  secretHash : String
  address : String
  lockingScript : String
deriving DecidableEq, Repr

/-- `createQuantumVault()` — `server.js` lines 113–139 (first variant,
manual address codec), as a function of the 32 random bytes drawn by
`crypto.randomBytes(32)`.  `none` models the exception thrown if
`toCashAddress` fails (proved unreachable below). -/
def createQuantumVault (secretBytes : List Nat) : Option Vault :=
  let secretHash := sha256 secretBytes
  let scriptBuffer := hexDecode "a820" ++ secretHash ++ hexDecode "87"
  let s256 := sha256 scriptBuffer
  let h160 := ripemd160 s256
  (toCashAddress h160 "p2sh").map fun address =>
    { secret := bytesToHex secretBytes
      secretHash := bytesToHex secretHash
      address := address
      lockingScript := bytesToHex scriptBuffer }

/-- A `res.json(...)` payload of the sweep handlers: either the success
shape `{success:true, message, txid, debug}` or the failure shape
`{success:false, error}`. -/
inductive SweepResponse where
  | ok (message txid debug : String)
  | err (error : String)
deriving DecidableEq, Repr

/-- The `success` field of a sweep response. -/
def SweepResponse.success : SweepResponse → Bool
  | .ok _ _ _ => true
  | .err _ => false

/-- `/api/sweep`, first variant (`server.js` lines 164–186): re-derive
the vault from the caller's `secret`, then respond with a mocked
broadcast success.  `svc` is the external balance oracle (available as
the module-level `Wallet`), `rnd` the 8 random bytes used for the
simulated txid.  The error branch models the catch clause, reachable
only if `toCashAddress` throws. -/
def sweepHandler1 (secret toAddress : String) (svc : String → Nat) (rnd : List Nat) :
    SweepResponse :=
  let secretBuf := hexDecode secret
  let secretHash := sha256 secretBuf
  let scriptBuffer := hexDecode "a820" ++ secretHash ++ hexDecode "87"
  let s256 := sha256 scriptBuffer
  let h160 := ripemd160 s256
  match toCashAddress h160 "p2sh" with
  | none => .err "TypeError"
  | some address =>
    .ok ("Vault " ++ address.take 15 ++ "... Validated!")
      ("tx_simulated_" ++ bytesToHex rnd)
      "Secret hash matches."

/-- `/api/sweep`, second variant (`server.js` lines 261–293): re-derive
the locking script, ask the external wallet service (modelled by the
balance oracle `svc`, keyed by the script hex handed to
`Wallet.fromP2SH`) for the balance, reject below the 1000-satoshi dust
threshold, otherwise respond with the simulated spend. -/
def sweepHandler2 (secret toAddress : String) (svc : String → Nat) : SweepResponse :=
  let secretBuf := hexDecode secret
  let secretHash := sha256 secretBuf
  let scriptBuffer := hexDecode "a820" ++ secretHash ++ hexDecode "87"
  let balance := svc (bytesToHex scriptBuffer)
  if balance < 1000 then .err "Insufficient funds in vault."
  else
    .ok "Transaction Constructed (Simulation)"
      "requires_full_node_implementation"
      "Secret verified against hash."

/-- Modelled from the spec (§4.2 step 5): the eight checksum groups of the
40-bit reference polynomial, most significant group first. -/
def specChecksum (pre : String) (payload : List Nat) : List Nat :=
  let pm := specPolyMod (hrpExpand pre ++ payload ++ [0, 0, 0, 0, 0, 0, 0, 0])
  (List.range 8).map fun i => (pm >>> (5 * (7 - i))) % 32

/-- The `k` low base-`2^t` digits of `A`, most significant first — the
reference description of what the `convertBits` loop emits. -/
def chunksBE (t A : Nat) : Nat → List Nat
  | 0 => []
  | k + 1 => ((A / 2 ^ (k * t)) % 2 ^ t) :: chunksBE t A k

/-!
## Bridge lemmas: JS 32-bit operators on in-range values

Every intermediate the codec produces on its real inputs stays well inside
32 bits; these lemmas discharge the `toU32` wrappers there.
-/

set_option maxRecDepth 4000

theorem U32_eq : U32 = 2 ^ 32 := by decide

theorem two_pow_32 : (2 : Nat) ^ 32 = 4294967296 := by norm_num

theorem toU32_eq (n : Nat) : toU32 n = n % 2 ^ 32 := by
  simp [toU32, U32_eq]

theorem toU32_of_lt {n : Nat} (h : n < 2 ^ 32) : toU32 n = n := by
  rw [toU32_eq, Nat.mod_eq_of_lt h]

/-- `(1 << t) - 1` evaluates, through JS 32-bit semantics, to the expected
mask for every `t ≤ 31` (at `t = 31` the ToInt32 sign wrap and the `- 1`
cancel). -/
theorem jsMaxv_eq {t : Nat} (h : t ≤ 31) : jsMaxv t = 2 ^ t - 1 := by
  interval_cases t <;> decide

theorem jsMaxv_lt_u32 (t : Nat) : jsMaxv t < 2 ^ 32 := by
  have h1 : (0:Int) ≤ (i32 (jsShl 1 t) - 1) % (U32:Int) := Int.emod_nonneg _ (by decide)
  have h2 : (i32 (jsShl 1 t) - 1) % (U32:Int) < (U32:Int) := Int.emod_lt_of_pos _ (by decide)
  have p32 := two_pow_32
  simp only [U32] at h1 h2
  unfold jsMaxv
  simp only [U32]
  omega

theorem jsMaxv_lt (t : Nat) : jsMaxv t < 2 ^ t := by
  rcases Nat.lt_or_ge t 32 with h | h
  · rw [jsMaxv_eq (by omega)]
    have : (0:Nat) < 2 ^ t := Nat.pos_pow_of_pos t (by omega)
    omega
  · exact Nat.lt_of_lt_of_le (jsMaxv_lt_u32 t) (Nat.pow_le_pow_right (by omega) h)

/-- Masking with the JS `maxv` always lands below `2 ^ toBits` — the
source of the range-safety property. -/
theorem jsAnd_jsMaxv_lt (x t : Nat) : jsAnd x (jsMaxv t) < 2 ^ t := by
  have h1 : jsAnd x (jsMaxv t) ≤ toU32 (jsMaxv t) := Nat.and_le_right
  have h2 : toU32 (jsMaxv t) ≤ jsMaxv t := Nat.mod_le _ _
  exact Nat.lt_of_le_of_lt (le_trans h1 h2) (jsMaxv_lt t)

/-- The JS `&` with an in-range mask computes `% 2 ^ t`. -/
theorem jsAnd_maxv_eq (x t : Nat) (h : t ≤ 31) : jsAnd x (jsMaxv t) = x % 2 ^ 32 % 2 ^ t := by
  have hlt : (2:Nat) ^ t - 1 < 2 ^ 32 := by
    have h1 : (2:Nat) ^ t ≤ 2 ^ 31 := Nat.pow_le_pow_right (by omega) h
    have h2 : (2:Nat) ^ 31 < 2 ^ 32 := by norm_num
    omega
  rw [jsAnd, jsMaxv_eq h, toU32_eq, toU32_eq, Nat.mod_eq_of_lt hlt,
    Nat.and_pow_two_sub_one_eq_mod]

theorem pow_dvd_pow32 {a : Nat} (h : a ≤ 32) : (2 : Nat) ^ a ∣ 2 ^ 32 :=
  Nat.pow_dvd_pow 2 h

/-- Arithmetic right shift, read modulo a window that the sign-extension
bits (multiples of `2 ^ (32 - k)`) cannot reach. -/
theorem jsShrS_mod (a k t : Nat) (hk : k < 32) (hkt : k + t ≤ 32) :
    jsShrS a k % 2 ^ t = a % 2 ^ 32 / 2 ^ k % 2 ^ t := by
  have h32 : k % 32 = k := Nat.mod_eq_of_lt hk
  unfold jsShrS
  rw [toU32_eq, h32, Nat.shiftRight_eq_div_pow]
  split
  · rfl
  · have hdvd : (2:Nat) ^ t ∣ U32 - 2 ^ (32 - k) := by
      have h1 : (2:Nat) ^ t ∣ 2 ^ (32 - k) := Nat.pow_dvd_pow 2 (by omega)
      have h2 : (2:Nat) ^ t ∣ U32 := by rw [U32_eq]; exact pow_dvd_pow32 (by omega)
      exact Nat.dvd_sub' h2 h1
    rw [Nat.add_mod, Nat.mod_eq_zero_of_dvd hdvd, Nat.add_zero, Nat.mod_mod_of_dvd _ (dvd_refl _)]

/-- The guard `(value >> fromBits) !== 0` of `convertBits` passes exactly
on values below `2 ^ fromBits` (for in-range widths and 32-bit values). -/
theorem jsShrS_eq_zero_iff (v f : Nat) (hv : v < 2 ^ 32) (hf : 0 < f) (hf31 : f ≤ 31) :
    jsShrS v f = 0 ↔ v < 2 ^ f := by
  have h32 : f % 32 = f := Nat.mod_eq_of_lt (by omega)
  have hp : (0:Nat) < 2 ^ f := Nat.pos_pow_of_pos f (by omega)
  have hf31' : (2:Nat) ^ f ≤ 2147483648 := by
    calc (2:Nat) ^ f ≤ 2 ^ 31 := Nat.pow_le_pow_right (by omega) hf31
    _ = 2147483648 := by norm_num
  have hfc : (2:Nat) ^ (32 - f) ≤ 2147483648 := by
    calc (2:Nat) ^ (32 - f) ≤ 2 ^ 31 := Nat.pow_le_pow_right (by omega) (by omega)
    _ = 2147483648 := by norm_num
  unfold jsShrS
  rw [toU32_of_lt hv, h32, Nat.shiftRight_eq_div_pow]
  constructor
  · intro h
    split at h
    · by_contra hge
      push_neg at hge
      have h1 : 1 ≤ v / 2 ^ f := (Nat.one_le_div_iff hp).2 hge
      omega
    · simp only [U32] at h
      rcases Nat.add_eq_zero.mp h with ⟨h1, h2⟩
      omega
  · intro h
    have hd : v / 2 ^ f = 0 := Nat.div_eq_of_lt h
    rw [if_pos (by omega), hd]

/-! ## Bit-stream semantics of `convertBits` -/

theorem streamVal_foldl (w : Nat) (xs : List Nat) :
    ∀ a0, xs.foldl (fun a v => a * 2 ^ w + v) a0 = a0 * 2 ^ (w * xs.length) + streamVal w xs := by
  induction xs with
  | nil => intro a0; simp [streamVal]
  | cons x rest ih =>
    intro a0
    have hs : streamVal w (x :: rest) = x * 2 ^ (w * rest.length) + streamVal w rest := by
      simp only [streamVal, List.foldl_cons, Nat.zero_mul, Nat.zero_add]
      exact ih x
    rw [List.foldl_cons, ih (a0 * 2 ^ w + x), hs, List.length_cons]
    ring

theorem streamVal_cons (w x : Nat) (xs : List Nat) :
    streamVal w (x :: xs) = x * 2 ^ (w * xs.length) + streamVal w xs := by
  simp only [streamVal, List.foldl_cons, Nat.zero_mul, Nat.zero_add]
  exact streamVal_foldl w xs x

theorem streamVal_lt (w : Nat) (xs : List Nat) (h : ∀ v ∈ xs, v < 2 ^ w) :
    streamVal w xs < 2 ^ (w * xs.length) := by
  induction xs with
  | nil => simp [streamVal]
  | cons x rest ih =>
    have hx : x < 2 ^ w := h x (by simp)
    have hr : streamVal w rest < 2 ^ (w * rest.length) := ih (fun v hv => h v (by simp [hv]))
    rw [streamVal_cons, List.length_cons, Nat.mul_succ, pow_add]
    calc x * 2 ^ (w * rest.length) + streamVal w rest
        < x * 2 ^ (w * rest.length) + 2 ^ (w * rest.length) := by omega
    _ = (x + 1) * 2 ^ (w * rest.length) := by ring
    _ ≤ 2 ^ w * 2 ^ (w * rest.length) := Nat.mul_le_mul_right _ (by omega)
    _ = 2 ^ (w * rest.length) * 2 ^ w := by ring

theorem chunksBE_length (t A k : Nat) : (chunksBE t A k).length = k := by
  induction k with
  | zero => rfl
  | succ k ih => simp [chunksBE, ih]

theorem chunksBE_mem_lt (t A k : Nat) : ∀ g ∈ chunksBE t A k, g < 2 ^ t := by
  induction k with
  | zero => simp [chunksBE]
  | succ k ih =>
    intro g hg
    rcases List.mem_cons.mp hg with h | h
    · subst h; exact Nat.mod_lt _ (Nat.pos_pow_of_pos t (by omega))
    · exact ih g h

theorem streamVal_chunksBE (t A k : Nat) : streamVal t (chunksBE t A k) = A % 2 ^ (k * t) := by
  induction k with
  | zero => simp [chunksBE, streamVal, Nat.mod_one]
  | succ k ih =>
    rw [chunksBE, streamVal_cons, chunksBE_length, ih]
    have h1 : (2:Nat) ^ ((k + 1) * t) = 2 ^ (k * t) * 2 ^ t := by
      rw [← pow_add]; congr 1; ring
    rw [h1, Nat.mod_mul]
    ring

theorem chunksBE_append (t A k m : Nat) :
    chunksBE t (A / 2 ^ (m * t)) k ++ chunksBE t A m = chunksBE t A (k + m) := by
  induction k with
  | zero => simp [chunksBE]
  | succ k ih =>
    have hd : A / 2 ^ (m * t) / 2 ^ (k * t) = A / 2 ^ ((k + m) * t) := by
      rw [Nat.div_div_eq_div_mul, ← pow_add]
      congr 2
      ring
    have hkm : k + 1 + m = (k + m) + 1 := by ring
    rw [hkm]
    simp only [chunksBE, List.cons_append]
    rw [hd, ih]

theorem chunksBE_add_high (t R c k : Nat) : chunksBE t (c * 2 ^ (k * t) + R) k = chunksBE t R k := by
  induction k generalizing c with
  | zero => rfl
  | succ k ih =>
    have hsplit : c * 2 ^ ((k + 1) * t) + R = R + 2 ^ (k * t) * (c * 2 ^ t) := by
      rw [show (k + 1) * t = k * t + t from by ring, pow_add]
      ring
    have hd : (c * 2 ^ ((k + 1) * t) + R) / 2 ^ (k * t) = R / 2 ^ (k * t) + c * 2 ^ t := by
      rw [hsplit, Nat.add_mul_div_left _ _ (Nat.pos_pow_of_pos _ (by omega))]
    show ((c * 2 ^ ((k + 1) * t) + R) / 2 ^ (k * t)) % 2 ^ t :: chunksBE t (c * 2 ^ ((k + 1) * t) + R) k
        = (R / 2 ^ (k * t)) % 2 ^ t :: chunksBE t R k
    rw [hd, Nat.add_mul_mod_self_right]
    congr 1
    rw [show c * 2 ^ ((k + 1) * t) + R = (c * 2 ^ t) * 2 ^ (k * t) + R from by
      rw [show (k + 1) * t = t + k * t from by ring, pow_add]; ring]
    exact ih (c * 2 ^ t)

theorem chunksBE_streamVal (w : Nat) (xs : List Nat) (h : ∀ v ∈ xs, v < 2 ^ w) :
    chunksBE w (streamVal w xs) xs.length = xs := by
  induction xs with
  | nil => rfl
  | cons x rest ih =>
    have hx : x < 2 ^ w := h x (by simp)
    have hr : streamVal w rest < 2 ^ (w * rest.length) := streamVal_lt w rest (fun v hv => h v (by simp [hv]))
    rw [streamVal_cons]
    simp only [List.length_cons, chunksBE]
    have hmul : rest.length * w = w * rest.length := by ring
    congr 1
    · rw [hmul, Nat.add_comm, Nat.add_mul_div_right _ _ (Nat.pos_pow_of_pos _ (by omega)),
        Nat.div_eq_of_lt hr, Nat.zero_add, Nat.mod_eq_of_lt hx]
    · rw [show x * 2 ^ (w * rest.length) = x * 2 ^ (rest.length * w) from by rw [hmul]]
      rw [chunksBE_add_high]
      exact ih (fun v hv => h v (by simp [hv]))

/-! ## Characterizing the `convertBits` loops on in-range inputs -/

theorem jsAnd_shrS_maxv (a k t : Nat) (hk : k < 32) (hkt : k + t ≤ 32) (ht31 : t ≤ 31) :
    jsAnd (jsShrS a k) (jsMaxv t) = a % 2 ^ 32 / 2 ^ k % 2 ^ t := by
  rw [jsAnd_maxv_eq _ t ht31, Nat.mod_mod_of_dvd _ (pow_dvd_pow32 (by omega)),
    jsShrS_mod a k t hk hkt]

theorem mod_u32_div_mod (A k t : Nat) (hkt : k + t ≤ 32) :
    A % 2 ^ 32 / 2 ^ k % 2 ^ t = A / 2 ^ k % 2 ^ t := by
  have h1 : (2:Nat) ^ 32 = 2 ^ k * 2 ^ (32 - k) := by rw [← pow_add]; congr 1; omega
  rw [h1, Nat.mod_mul_right_div_self, Nat.mod_mod_of_dvd _ (Nat.pow_dvd_pow 2 (by omega))]

theorem emitLoop_go_spec (t A : Nat) (ht : 0 < t) (ht31 : t ≤ 31) :
    ∀ fuel bits, bits ≤ fuel → bits ≤ 32 →
      emitLoop.go t (A % 2 ^ 32) fuel bits =
        (chunksBE t (A / 2 ^ (bits % t)) (bits / t), bits % t) := by
  intro fuel
  induction fuel with
  | zero =>
    intro bits h1 _
    have hb : bits = 0 := by omega
    subst hb
    simp [emitLoop.go, chunksBE, Nat.zero_mod, Nat.zero_div]
  | succ fuel ih =>
    intro bits hle h32
    by_cases hc : t ≤ bits
    · have hmod : bits % t = (bits - t) % t := Nat.mod_eq_sub_mod hc
      have hdiv : bits / t = (bits - t) / t + 1 := Nat.div_eq_sub_div ht hc
      have hg : jsAnd (jsShrS (A % 2 ^ 32) (bits - t)) (jsMaxv t) = A / 2 ^ (bits - t) % 2 ^ t := by
        rw [jsAnd_shrS_maxv (A % 2 ^ 32) (bits - t) t (by omega) (by omega) ht31,
          Nat.mod_mod_of_dvd _ (dvd_refl _), mod_u32_div_mod A (bits - t) t (by omega)]
      have hih := ih (bits - t) (by omega) (by omega)
      have hexp : (bits - t) % t + (bits - t) / t * t = bits - t := by
        have h1 := Nat.div_add_mod (bits - t) t
        have h2 : (bits - t) / t * t = t * ((bits - t) / t) := Nat.mul_comm _ _
        omega
      have hhead : A / 2 ^ (bits % t) / 2 ^ ((bits - t) / t * t) = A / 2 ^ (bits - t) := by
        rw [Nat.div_div_eq_div_mul, ← pow_add, hmod, hexp]
      simp only [emitLoop.go, if_pos (show t ≤ bits ∧ 0 < t from ⟨hc, ht⟩)]
      rw [hih, hdiv]
      simp only [chunksBE, ← hmod]
      rw [hg, hhead]
    · have hlt : bits < t := by omega
      simp only [emitLoop.go, if_neg (show ¬(t ≤ bits ∧ 0 < t) from by omega)]
      rw [Nat.mod_eq_of_lt hlt, Nat.div_eq_of_lt hlt]
      rfl

theorem emitLoop_spec (t A bits : Nat) (ht : 0 < t) (ht31 : t ≤ 31) (hb : bits ≤ 32) :
    emitLoop t (A % 2 ^ 32) bits = (chunksBE t (A / 2 ^ (bits % t)) (bits / t), bits % t) :=
  emitLoop_go_spec t A ht ht31 bits bits (Nat.le_refl _) hb

/-- The accumulator update `acc = (acc << fromBits) | value` adds an
in-range value into the freshly vacated low bits. -/
theorem jsOr_shl_add (acc v f : Nat) (hf : 0 < f) (hf31 : f ≤ 31) (hv : v < 2 ^ f) :
    jsOr (jsShl acc f) v = (acc * 2 ^ f + v) % 2 ^ 32 := by
  have hf32 : f % 32 = f := Nat.mod_eq_of_lt (by omega)
  have hvlt : v < 2 ^ 32 := lt_of_lt_of_le hv (Nat.pow_le_pow_right (by omega) (by omega))
  have hX : jsShl acc f = acc * 2 ^ f % 2 ^ 32 := by
    rw [jsShl, toU32_eq, toU32_eq, hf32, Nat.shiftLeft_eq, Nat.mod_mul_mod]
  have hXlt : acc * 2 ^ f % 2 ^ 32 < 2 ^ 32 := Nat.mod_lt _ (by positivity)
  have hdvd : 2 ^ f ∣ acc * 2 ^ f % 2 ^ 32 :=
    (Nat.dvd_mod_iff (pow_dvd_pow32 (by omega))).2 ⟨acc, by ring⟩
  rw [jsOr, hX, toU32_of_lt hXlt, toU32_of_lt hvlt]
  have h1 : 2 ^ f * (acc * 2 ^ f % 2 ^ 32 / 2 ^ f) + v
      = 2 ^ f * (acc * 2 ^ f % 2 ^ 32 / 2 ^ f) ||| v := Nat.mul_add_lt_is_or hv _
  rw [Nat.mul_div_cancel' hdvd] at h1
  rw [← h1]
  have hXv : acc * 2 ^ f % 2 ^ 32 + v < 2 ^ 32 := by
    have h2 : acc * 2 ^ f % 2 ^ 32 / 2 ^ f < 2 ^ (32 - f) := by
      apply Nat.div_lt_of_lt_mul
      calc acc * 2 ^ f % 2 ^ 32 < 2 ^ 32 := hXlt
      _ = 2 ^ f * 2 ^ (32 - f) := by rw [← pow_add]; congr 1; omega
    have h4 : acc * 2 ^ f % 2 ^ 32 = 2 ^ f * (acc * 2 ^ f % 2 ^ 32 / 2 ^ f) :=
      (Nat.mul_div_cancel' hdvd).symm
    have h6 : acc * 2 ^ f % 2 ^ 32 + 2 ^ f ≤ 2 ^ 32 := by
      calc acc * 2 ^ f % 2 ^ 32 + 2 ^ f
          = 2 ^ f * (acc * 2 ^ f % 2 ^ 32 / 2 ^ f + 1) := by rw [Nat.mul_add, Nat.mul_one, ← h4]
      _ ≤ 2 ^ f * 2 ^ (32 - f) := Nat.mul_le_mul_left _ (by omega)
      _ = 2 ^ 32 := by rw [← pow_add]; congr 1; omega
    omega
  symm
  rw [Nat.add_mod, Nat.mod_eq_of_lt hvlt, Nat.mod_eq_of_lt hXv]

/-- The padding / leftover group `(acc << (toBits - bits)) & maxv`: the
pending low `r` bits of the stream, left-aligned in a `toBits` window. -/
theorem padGroup_eq (N t r : Nat) (ht31 : t ≤ 31) (hr : r ≤ t) :
    jsAnd (jsShl (N % 2 ^ 32) (t - r)) (jsMaxv t) = N % 2 ^ r * 2 ^ (t - r) := by
  have hk : (t - r) % 32 = t - r := Nat.mod_eq_of_lt (by omega)
  have h1 : jsShl (N % 2 ^ 32) (t - r) = N * 2 ^ (t - r) % 2 ^ 32 := by
    rw [jsShl, toU32_eq, toU32_eq, hk, Nat.shiftLeft_eq, Nat.mod_mod_of_dvd _ (dvd_refl _),
      Nat.mod_mul_mod]
  rw [jsAnd_maxv_eq _ t ht31, h1, Nat.mod_mod_of_dvd _ (dvd_refl _),
    Nat.mod_mod_of_dvd _ (pow_dvd_pow32 (by omega)),
    show (2:Nat) ^ t = 2 ^ r * 2 ^ (t - r) from by rw [← pow_add]; congr 1; omega,
    Nat.mul_mod_mul_right]

/-- The `data = []` equation of `convertBits.go` with padding. -/
theorem convertBits_go_nil_pad (f t : Nat) (acc bits : Nat) (ret : List Nat) :
    convertBits.go f t true [] acc bits ret =
      if 0 < bits then some (ret ++ [jsAnd (jsShl acc (t - bits)) (jsMaxv t)]) else some ret := rfl

/-- The `data = []` equation of `convertBits.go` without padding. -/
theorem convertBits_go_nil_nopad (f t : Nat) (acc bits : Nat) (ret : List Nat) :
    convertBits.go f t false [] acc bits ret =
      if f ≤ bits ∨ jsAnd (jsShl acc (t - bits)) (jsMaxv t) ≠ 0 then none else some ret := rfl

/-- The cons equation of `convertBits.go` when the range guard passes. -/
theorem convertBits_go_cons_ok (f t : Nat) (pad : Bool) (v : Nat) (rest : List Nat)
    (acc bits : Nat) (ret : List Nat) (h : jsShrS v f = 0) :
    convertBits.go f t pad (v :: rest) acc bits ret =
      convertBits.go f t pad rest (jsOr (jsShl acc f) v)
        (emitLoop t (jsOr (jsShl acc f) v) (bits + f)).2
        (ret ++ (emitLoop t (jsOr (jsShl acc f) v) (bits + f)).1) := by
  show (if jsShrS v f ≠ 0 then none else _) = _
  rw [if_neg (by simp [h])]

/-- Full characterization of the `convertBits` main loop on in-range
input.  State abstraction: if the bits consumed so far form a stream of
value `N` and bit length accounted `B` (accumulator pattern `N % 2^32`,
pending bit count `B % t`, groups emitted so far the base-`2^t` digits of
`N / 2^(B % t)`), then consuming `data` extends the stream by its values
and the final result is: with padding, all digits of the zero-padded
stream; without padding, the digits of the stream exactly when the
leftover bit count is below `fromBits` and the leftover bits are zero,
and `null` otherwise. -/
theorem convertBits_go_spec (f t : Nat) (pad : Bool) (hf : 0 < f) (ht : 0 < t)
    (hft : f + t ≤ 32) :
    ∀ (data : List Nat) (N B : Nat), (∀ v ∈ data, v < 2 ^ f) →
      convertBits.go f t pad data (N % 2 ^ 32) (B % t) (chunksBE t (N / 2 ^ (B % t)) (B / t)) =
        (if pad then
          some (chunksBE t ((N * 2 ^ (f * data.length) + streamVal f data) *
              2 ^ ((t - (B + f * data.length) % t) % t))
            ((B + f * data.length + (t - (B + f * data.length) % t) % t) / t))
        else if f ≤ (B + f * data.length) % t ∨
            (N * 2 ^ (f * data.length) + streamVal f data) % 2 ^ ((B + f * data.length) % t) ≠ 0 then
          none
        else
          some (chunksBE t ((N * 2 ^ (f * data.length) + streamVal f data) /
            2 ^ ((B + f * data.length) % t)) ((B + f * data.length) / t))) := by
  have hf31 : f ≤ 31 := by omega
  have ht31 : t ≤ 31 := by omega
  intro data
  induction data with
  | nil =>
    intro N B _
    have hr : B % t < t := Nat.mod_lt _ ht
    have hpadg := padGroup_eq N t (B % t) ht31 (le_of_lt hr)
    simp only [List.length_nil, Nat.mul_zero, pow_zero, Nat.mul_one, streamVal,
      List.foldl_nil, Nat.add_zero]
    cases pad with
    | true =>
      rw [convertBits_go_nil_pad, if_pos rfl]
      by_cases hb : 0 < B % t
      · rw [if_pos hb, hpadg]
        have hpa : (t - B % t) % t = t - B % t := Nat.mod_eq_of_lt (by omega)
        rw [hpa]
        have hsum : B + (t - B % t) = t * (B / t + 1) := by
          have h1 := Nat.div_add_mod B t
          have h3 : t * (B / t + 1) = t * (B / t) + t := by ring
          omega
        have hcount : (B + (t - B % t)) / t = B / t + 1 := by
          rw [hsum, Nat.mul_div_cancel_left _ ht]
        rw [hcount]
        have hsplit : (2:Nat) ^ t = 2 ^ (B % t) * 2 ^ (t - B % t) := by
          rw [← pow_add]; congr 1; omega
        have hXdiv : N * 2 ^ (t - B % t) / 2 ^ (1 * t) = N / 2 ^ (B % t) := by
          rw [Nat.one_mul, hsplit, Nat.mul_comm (2 ^ (B % t)) (2 ^ (t - B % t)),
            ← Nat.div_div_eq_div_mul, Nat.mul_div_cancel _ (Nat.pos_pow_of_pos _ (by omega))]
        have hX1 : chunksBE t (N * 2 ^ (t - B % t)) 1 = [N % 2 ^ (B % t) * 2 ^ (t - B % t)] := by
          show [N * 2 ^ (t - B % t) / 2 ^ (0 * t) % 2 ^ t] = _
          rw [Nat.zero_mul, pow_zero, Nat.div_one, hsplit, Nat.mul_mod_mul_right]
        rw [← chunksBE_append t (N * 2 ^ (t - B % t)) (B / t) 1, hXdiv, hX1]
      · rw [if_neg hb]
        have hb0 : B % t = 0 := by omega
        rw [hb0]
        simp [Nat.sub_zero, Nat.mod_self, pow_zero, Nat.mul_one, Nat.add_zero, Nat.div_one]
    | false =>
      rw [if_neg Bool.false_ne_true, convertBits_go_nil_nopad, hpadg]
      have hpos : (0:Nat) < 2 ^ (t - B % t) := Nat.pos_pow_of_pos _ (by omega)
      by_cases hcond : f ≤ B % t ∨ N % 2 ^ (B % t) ≠ 0
      · have hcond' : f ≤ B % t ∨ N % 2 ^ (B % t) * 2 ^ (t - B % t) ≠ 0 := by
          rcases hcond with h | h
          · exact Or.inl h
          · refine Or.inr fun hc => h ?_
            rcases Nat.mul_eq_zero.mp hc with h1 | h1
            · exact h1
            · exact absurd h1 (Nat.pos_iff_ne_zero.mp hpos)
        rw [if_pos hcond', if_pos hcond]
      · have hcond' : ¬(f ≤ B % t ∨ N % 2 ^ (B % t) * 2 ^ (t - B % t) ≠ 0) := by
          push_neg at hcond ⊢
          exact ⟨hcond.1, by rw [hcond.2, Nat.zero_mul]⟩
        rw [if_neg hcond', if_neg hcond]
  | cons v rest ih =>
    intro N B hdata
    have hv : v < 2 ^ f := hdata v (by simp)
    have hvrest : ∀ x ∈ rest, x < 2 ^ f := fun x hx => hdata x (by simp [hx])
    have hv32 : v < 2 ^ 32 := lt_of_lt_of_le hv (Nat.pow_le_pow_right (by omega) (by omega))
    have hguard : jsShrS v f = 0 := (jsShrS_eq_zero_iff v f hv32 hf hf31).2 hv
    have hrB : B % t < t := Nat.mod_lt _ ht
    rw [convertBits_go_cons_ok f t pad v rest _ _ _ hguard]
    have hacc : jsOr (jsShl (N % 2 ^ 32) f) v = (N * 2 ^ f + v) % 2 ^ 32 := by
      rw [jsOr_shl_add _ v f hf hf31 hv, Nat.add_mod, Nat.mod_mul_mod, ← Nat.add_mod]
    have hemit := emitLoop_spec t (N * 2 ^ f + v) (B % t + f) ht ht31 (by omega)
    rw [hacc, hemit]
    have hm1 : (B % t + f) % t = (B + f) % t := Nat.mod_add_mod B t f
    have hNdiv : (N * 2 ^ f + v) / 2 ^ f = N := by
      rw [Nat.add_comm, Nat.add_mul_div_right _ _ (Nat.pos_pow_of_pos f (by omega)),
        Nat.div_eq_of_lt hv, Nat.zero_add]
    have hexp2 : (B + f) % t + (B % t + f) / t * t = B % t + f := by
      have h1 := Nat.div_add_mod (B % t + f) t
      have h2 : (B % t + f) / t * t = t * ((B % t + f) / t) := Nat.mul_comm _ _
      omega
    have hretbase : (N * 2 ^ f + v) / 2 ^ ((B + f) % t) / 2 ^ ((B % t + f) / t * t)
        = N / 2 ^ (B % t) := by
      rw [Nat.div_div_eq_div_mul, ← pow_add, hexp2,
        show B % t + f = f + B % t from by ring, pow_add, ← Nat.div_div_eq_div_mul, hNdiv]
    have hcount2 : B / t + (B % t + f) / t = (B + f) / t := by
      have h1 := Nat.div_add_mod B t
      have h2 : B + f = B % t + f + t * (B / t) := by omega
      rw [h2, Nat.add_mul_div_left _ _ ht]
      ring
    have happ := chunksBE_append t ((N * 2 ^ f + v) / 2 ^ ((B + f) % t)) (B / t) ((B % t + f) / t)
    rw [hretbase] at happ
    rw [hm1, happ, hcount2]
    rw [ih (N * 2 ^ f + v) (B + f) hvrest]
    have hNn : (N * 2 ^ f + v) * 2 ^ (f * rest.length) + streamVal f rest
        = N * 2 ^ (f * (v :: rest).length) + streamVal f (v :: rest) := by
      rw [streamVal_cons, List.length_cons, show f * (rest.length + 1) = f * rest.length + f from by ring,
        pow_add]
      ring
    have hBn : B + f + f * rest.length = B + f * (v :: rest).length := by
      rw [List.length_cons]; ring
    rw [hNn, hBn]

/-- `convertBits` on in-range data, characterized in stream terms. -/
theorem convertBits_spec (data : List Nat) (f t : Nat) (pad : Bool) (hf : 0 < f) (ht : 0 < t)
    (hft : f + t ≤ 32) (hdata : ∀ v ∈ data, v < 2 ^ f) :
    convertBits data f t pad =
      if pad then
        some (chunksBE t (streamVal f data * 2 ^ ((t - f * data.length % t) % t))
          ((f * data.length + (t - f * data.length % t) % t) / t))
      else if f ≤ f * data.length % t ∨ streamVal f data % 2 ^ (f * data.length % t) ≠ 0 then none
      else some (chunksBE t (streamVal f data / 2 ^ (f * data.length % t)) (f * data.length / t)) := by
  have h := convertBits_go_spec f t pad hf ht hft data 0 0 hdata
  simp only [Nat.zero_mod, Nat.zero_div, pow_zero, Nat.div_one, chunksBE, Nat.zero_mul,
    Nat.zero_add] at h
  exact h

/-- Every group the inner while loop pushes is masked with `maxv`. -/
theorem emitLoop_go_mem_lt (t acc : Nat) :
    ∀ fuel bits, ∀ v ∈ (emitLoop.go t acc fuel bits).1, v < 2 ^ t := by
  intro fuel
  induction fuel with
  | zero => intro bits v hv; simp [emitLoop.go] at hv
  | succ fuel ih =>
    intro bits v hv
    by_cases hc : t ≤ bits ∧ 0 < t
    · simp only [emitLoop.go, if_pos hc] at hv
      rcases List.mem_cons.mp hv with h | h
      · subst h; exact jsAnd_jsMaxv_lt _ _
      · exact ih (bits - t) v h
    · simp only [emitLoop.go, if_neg hc] at hv
      simp at hv

/-- Every group `convertBits` ever emits is masked with `maxv`. -/
theorem convertBits_go_mem_lt (f t : Nat) (pad : Bool) :
    ∀ (data : List Nat) (acc bits : Nat) (ret out : List Nat),
      convertBits.go f t pad data acc bits ret = some out →
      (∀ v ∈ ret, v < 2 ^ t) → ∀ v ∈ out, v < 2 ^ t := by
  intro data
  induction data with
  | nil =>
    intro acc bits ret out h hret v hv
    cases pad with
    | true =>
      rw [convertBits_go_nil_pad] at h
      by_cases hb : 0 < bits
      · rw [if_pos hb] at h
        cases Option.some.injEq _ _ ▸ h with
        | refl =>
          rcases List.mem_append.mp hv with h1 | h1
          · exact hret v h1
          · rcases List.mem_singleton.mp h1 with h2
            subst h2
            exact jsAnd_jsMaxv_lt _ _
      · rw [if_neg hb] at h
        cases Option.some.injEq _ _ ▸ h with
        | refl => exact hret v hv
    | false =>
      rw [convertBits_go_nil_nopad] at h
      by_cases hc : f ≤ bits ∨ jsAnd (jsShl acc (t - bits)) (jsMaxv t) ≠ 0
      · rw [if_pos hc] at h; cases h
      · rw [if_neg hc] at h
        cases Option.some.injEq _ _ ▸ h with
        | refl => exact hret v hv
  | cons x rest ih =>
    intro acc bits ret out h hret v hv
    by_cases hg : jsShrS x f ≠ 0
    · have : convertBits.go f t pad (x :: rest) acc bits ret = none := by
        show (if jsShrS x f ≠ 0 then none else _) = none
        rw [if_pos hg]
      rw [this] at h
      cases h
    · push_neg at hg
      rw [convertBits_go_cons_ok f t pad x rest acc bits ret hg] at h
      refine ih _ _ _ _ h ?_ v hv
      intro w hw
      rcases List.mem_append.mp hw with h1 | h1
      · exact hret w h1
      · exact emitLoop_go_mem_lt t _ _ _ w h1

/-! ## Checksum, alphabet and address-pipeline lemmas -/

theorem calculateChecksum_length (pre : String) (payload : List Nat) :
    (calculateChecksum pre payload).length = 8 := by
  simp [calculateChecksum]

theorem calculateChecksum_mem_lt (pre : String) (payload : List Nat) :
    ∀ v ∈ calculateChecksum pre payload, v < 32 := by
  intro v hv
  simp only [calculateChecksum, List.mem_map] at hv
  obtain ⟨i, -, rfl⟩ := hv
  have h1 : jsAnd (jsShrU (polyMod (hrpExpand pre ++ payload ++ [0, 0, 0, 0, 0, 0, 0, 0]))
      (5 * (7 - i))) 0x1f ≤ toU32 0x1f := Nat.and_le_right
  have h2 : toU32 0x1f = 31 := by decide
  omega

theorem toCashAddress_eq (h160 : List Nat) (ty : String) (hb : ∀ b ∈ h160, b < 256) :
    ∃ p5, convertBits ((if ty = "p2sh" then 0x08 else 0x00) :: h160) 8 5 true = some p5 ∧
      (∀ v ∈ p5, v < 32) ∧
      toCashAddress h160 ty =
        some ((p5 ++ calculateChecksum "bitcoincash" p5).foldl
          (fun s v => s ++ charsetAt v) ("bitcoincash" ++ ":")) := by
  have hpayload : ∀ v ∈ (if ty = "p2sh" then 0x08 else 0x00) :: h160, v < 2 ^ 8 := by
    intro v hv
    rcases List.mem_cons.mp hv with h | h
    · subst h; split <;> norm_num
    · calc v < 256 := hb v h
      _ = 2 ^ 8 := by norm_num
  have hsome := convertBits_spec _ 8 5 true (by omega) (by omega) (by omega) hpayload
  rw [if_pos rfl] at hsome
  refine ⟨_, hsome, fun v hv => ?_, ?_⟩
  · have h := chunksBE_mem_lt 5 _ _ v hv
    calc v < 2 ^ 5 := h
    _ = 32 := by norm_num
  · simp only [toCashAddress, hsome]

theorem foldl_charsetAt (combined : List Nat) (h : ∀ v ∈ combined, v < 32) :
    ∀ init : List Char,
      combined.foldl (fun s v => s ++ charsetAt v) (String.mk init) =
        String.mk (init ++ combined.map fun v => CHARSET.getD v 'q') := by
  induction combined with
  | nil => intro init; simp
  | cons x rest ih =>
    intro init
    have hx : x < 32 := h x (by simp)
    have hstep : String.mk init ++ charsetAt x = String.mk (init ++ [CHARSET.getD x 'q']) := by
      rw [charsetAt, if_pos hx]
      rfl
    rw [List.foldl_cons, hstep, ih (fun v hv => h v (by simp [hv]))]
    simp

/-! ## Hash output shape -/

theorem mem_be32_lt (w : Nat) : ∀ b ∈ be32 w, b < 256 := by
  intro b hb
  simp only [be32, List.mem_cons, List.not_mem_nil, or_false] at hb
  rcases hb with h | h | h | h <;> subst h <;> exact Nat.mod_lt _ (by norm_num)

theorem mem_le32_lt (w : Nat) : ∀ b ∈ le32 w, b < 256 := by
  intro b hb
  simp only [le32, List.mem_cons, List.not_mem_nil, or_false] at hb
  rcases hb with h | h | h | h <;> subst h <;> exact Nat.mod_lt _ (by norm_num)

theorem foldr_be32_mem_lt (hs : List Nat) :
    ∀ b ∈ hs.foldr (fun w acc => be32 w ++ acc) [], b < 256 := by
  induction hs with
  | nil => simp
  | cons w rest ih =>
    intro b hb
    rcases List.mem_append.mp hb with h | h
    · exact mem_be32_lt w b h
    · exact ih b h

theorem foldr_le32_mem_lt (hs : List Nat) :
    ∀ b ∈ hs.foldr (fun w acc => le32 w ++ acc) [], b < 256 := by
  induction hs with
  | nil => simp
  | cons w rest ih =>
    intro b hb
    rcases List.mem_append.mp hb with h | h
    · exact mem_le32_lt w b h
    · exact ih b h

theorem sha256_mem_lt (msg : List Nat) : ∀ b ∈ sha256 msg, b < 256 :=
  foldr_be32_mem_lt _

theorem ripemd160_mem_lt (msg : List Nat) : ∀ b ∈ ripemd160 msg, b < 256 :=
  foldr_le32_mem_lt _

theorem foldl_sha256Round_length (l : List (Nat × Nat)) :
    ∀ st : List Nat, st.length = 8 → (l.foldl sha256Round st).length = 8 := by
  induction l with
  | nil => intro st h; exact h
  | cons kw rest ih => intro st _; exact ih (sha256Round st kw) rfl

theorem sha256Compress_length (hs block : List Nat) (h : hs.length = 8) :
    (sha256Compress hs block).length = 8 := by
  unfold sha256Compress
  rw [List.length_map, List.length_zip, h, foldl_sha256Round_length _ _ h]
  exact Nat.min_self 8

theorem foldl_sha256Compress_length (blocks : List (List Nat)) :
    ∀ hs : List Nat, hs.length = 8 → (blocks.foldl sha256Compress hs).length = 8 := by
  induction blocks with
  | nil => intro hs h; exact h
  | cons b rest ih => intro hs h; exact ih _ (sha256Compress_length hs b h)

theorem foldr_be32_length (hs : List Nat) :
    (hs.foldr (fun w acc => be32 w ++ acc) []).length = 4 * hs.length := by
  induction hs with
  | nil => rfl
  | cons w rest ih =>
    show (be32 w ++ rest.foldr (fun w acc => be32 w ++ acc) []).length = 4 * (rest.length + 1)
    rw [List.length_append, ih]
    simp only [be32, List.length_cons, List.length_nil]
    omega

theorem sha256_length (msg : List Nat) : (sha256 msg).length = 32 := by
  unfold sha256
  rw [foldr_be32_length,
    foldl_sha256Compress_length (chunks16 (wordsBE (mdPad be64 msg))) sha256H0 (by decide)]

/-! ## Hex round-trip -/

theorem hexVal_hexDigit : ∀ n < 16, hexVal (hexDigit n) = some n := by decide

theorem hexDecodeList_bytes (bs : List Nat) (h : ∀ b ∈ bs, b < 256) :
    hexDecodeList (bs.foldr (fun b acc => hexDigit (b / 16 % 16) :: hexDigit (b % 16) :: acc) []) = bs := by
  induction bs with
  | nil => rfl
  | cons b rest ih =>
    have hb : b < 256 := h b (by simp)
    have h1 : hexVal (hexDigit (b / 16 % 16)) = some (b / 16 % 16) :=
      hexVal_hexDigit _ (Nat.mod_lt _ (by norm_num))
    have h2 : hexVal (hexDigit (b % 16)) = some (b % 16) :=
      hexVal_hexDigit _ (Nat.mod_lt _ (by norm_num))
    simp only [List.foldr_cons, hexDecodeList, h1, h2]
    rw [ih (fun x hx => h x (by simp [hx]))]
    congr 1
    omega

theorem hexDecode_bytesToHex (bs : List Nat) (h : ∀ b ∈ bs, b < 256) :
    hexDecode (bytesToHex bs) = bs :=
  hexDecodeList_bytes bs h

theorem hexVal_lt (c : Char) (n : Nat) (h : hexVal c = some n) : n < 16 := by
  unfold hexVal at h
  split at h <;> simp_all <;> omega

theorem hexDecodeList_mem_lt : ∀ cs : List Char, ∀ b ∈ hexDecodeList cs, b < 256
  | [] => by simp [hexDecodeList]
  | [c] => by simp [hexDecodeList]
  | c1 :: c2 :: rest => by
    intro b hb
    unfold hexDecodeList at hb
    split at hb
    next hi lo h1 h2 =>
      rcases List.mem_cons.mp hb with h | h
      · have b1 := hexVal_lt _ _ h1
        have b2 := hexVal_lt _ _ h2
        omega
      · exact hexDecodeList_mem_lt rest b h
    next => simp at hb

theorem hexDecode_mem_lt (s : String) : ∀ b ∈ hexDecode s, b < 256 :=
  hexDecodeList_mem_lt s.data

/-! ## Handler behaviour -/

/-- The first sweep variant always reaches the mocked success response:
hex decoding never throws, the full hash/address derivation is total, and
no balance is consulted. -/
theorem sweepHandler1_ok (secret toAddress : String) (svc : String → Nat) (rnd : List Nat) :
    ∃ addr,
      toCashAddress (ripemd160 (sha256 (hexDecode "a820" ++ sha256 (hexDecode secret) ++
        hexDecode "87"))) "p2sh" = some addr ∧
      sweepHandler1 secret toAddress svc rnd =
        SweepResponse.ok ("Vault " ++ addr.take 15 ++ "... Validated!")
          ("tx_simulated_" ++ bytesToHex rnd) "Secret hash matches." := by
  obtain ⟨p5, -, -, haddr⟩ :=
    toCashAddress_eq (ripemd160 (sha256 (hexDecode "a820" ++ sha256 (hexDecode secret) ++
      hexDecode "87"))) "p2sh" (ripemd160_mem_lt _)
  refine ⟨_, haddr, ?_⟩
  simp only [sweepHandler1, haddr]

/-- C3: for every sweep request to the second variant, a reported balance
of 999 satoshis yields `{success:false, error:"Insufficient funds in
vault."}` with no transaction constructed, and a balance of 1000
proceeds past the dust-threshold check to the simulated-spend
response. -/
theorem sweep_dust_threshold (secret toAddress : String) :
    sweepHandler2 secret toAddress (fun _ => 999) =
      SweepResponse.err "Insufficient funds in vault." ∧
    sweepHandler2 secret toAddress (fun _ => 1000) =
      SweepResponse.ok "Transaction Constructed (Simulation)"
        "requires_full_node_implementation" "Secret verified against hash." :=
  ⟨rfl, rfl⟩

/-- C9: the first sweep variant's response does not depend on the balance
oracle at all (it never queries a balance), always reports success with a
simulated txid, and its message claims the vault was validated —
regardless of whether the secret corresponds to any funded vault. -/
theorem sweep_first_variant_mocked (secret toAddress : String) (svc svc' : String → Nat)
    (rnd : List Nat) :
    sweepHandler1 secret toAddress svc rnd = sweepHandler1 secret toAddress svc' rnd ∧
    ∃ addr,
      toCashAddress (ripemd160 (sha256 (hexDecode "a820" ++ sha256 (hexDecode secret) ++
        hexDecode "87"))) "p2sh" = some addr ∧
      sweepHandler1 secret toAddress svc rnd =
        SweepResponse.ok ("Vault " ++ addr.take 15 ++ "... Validated!")
          ("tx_simulated_" ++ bytesToHex rnd) "Secret hash matches." ∧
      (sweepHandler1 secret toAddress svc rnd).success = true := by
  obtain ⟨addr, haddr, hres⟩ := sweepHandler1_ok secret toAddress svc rnd
  exact ⟨rfl, addr, haddr, hres, by rw [hres]; rfl⟩

/-- C2: a 62-hex-character secret decodes to 31 bytes without any error;
the first sweep variant hashes it and responds with success, and the
second proceeds to the balance check — no `InvalidHexInput` failure
exists before hashing. -/
theorem sweep_no_input_validation :
    (hexDecode (String.mk (List.replicate 62 '0'))).length = 31 ∧
    ∀ (toAddress : String) (svc : String → Nat) (rnd : List Nat),
      ∃ addr,
        toCashAddress (ripemd160 (sha256 (hexDecode "a820" ++
          sha256 (hexDecode (String.mk (List.replicate 62 '0'))) ++ hexDecode "87"))) "p2sh" =
          some addr ∧
        sweepHandler1 (String.mk (List.replicate 62 '0')) toAddress svc rnd =
          SweepResponse.ok ("Vault " ++ addr.take 15 ++ "... Validated!")
            ("tx_simulated_" ++ bytesToHex rnd) "Secret hash matches." ∧
        sweepHandler2 (String.mk (List.replicate 62 '0')) toAddress (fun _ => 0) =
          SweepResponse.err "Insufficient funds in vault." := by
  refine ⟨by decide, ?_⟩
  intro toAddress svc rnd
  obtain ⟨addr, haddr, hres⟩ := sweepHandler1_ok (String.mk (List.replicate 62 '0')) toAddress svc rnd
  exact ⟨addr, haddr, hres, rfl⟩

/-- C10: every group `convertBits` returns lies below `2 ^ toBits`; every
checksum group lies below 32; and the `toCashAddress` pipeline only ever
indexes the 32-character alphabet with in-range values. -/
theorem encode_range_safety :
    (∀ (data : List Nat) (f t : Nat) (pad : Bool) (out : List Nat),
        convertBits data f t pad = some out → ∀ v ∈ out, v < 2 ^ t) ∧
    (∀ (pre : String) (payload : List Nat), ∀ v ∈ calculateChecksum pre payload, v < 32) ∧
    (∀ (h160 : List Nat) (ty : String), (∀ b ∈ h160, b < 256) →
      ∃ p5, convertBits ((if ty = "p2sh" then 0x08 else 0x00) :: h160) 8 5 true = some p5 ∧
        ∀ v ∈ p5 ++ calculateChecksum "bitcoincash" p5, v < 32) := by
  refine ⟨?_, calculateChecksum_mem_lt, ?_⟩
  · intro data f t pad out h
    exact convertBits_go_mem_lt f t pad data 0 0 [] out h (by simp)
  · intro h160 ty hb
    obtain ⟨p5, hp5, hmem, -⟩ := toCashAddress_eq h160 ty hb
    refine ⟨p5, hp5, ?_⟩
    intro v hv
    rcases List.mem_append.mp hv with h | h
    · exact hmem v h
    · exact calculateChecksum_mem_lt _ _ v h

/-- Concrete instantiation of `encode_range_safety`. -/
theorem encode_range_safety_witness :
    (∀ v ∈ [1, 0], v < 2 ^ 5) ∧
    (∀ v ∈ calculateChecksum "bitcoincash" [], v < 32) ∧
    (∃ p5, convertBits ((if "p2sh" = "p2sh" then 0x08 else 0x00) :: List.replicate 20 0) 8 5 true
        = some p5 ∧
      ∀ v ∈ p5 ++ calculateChecksum "bitcoincash" p5, v < 32) :=
  ⟨encode_range_safety.1 [8] 8 5 true [1, 0] (by decide),
   encode_range_safety.2.1 "bitcoincash" [],
   encode_range_safety.2.2 (List.replicate 20 0) "p2sh" (by decide)⟩

/-- C1: the checksum groups `calculateChecksum` produces do not satisfy
the decode-side invariant: re-running the polynomial evaluation of spec
§4.2 steps 2–4 (the 40-bit reference `specPolyMod`, and even the code's
own 32-bit `polyMod`) over `expanded prefix ‖ payload ‖ checksum` is
nonzero on the payload of a real address (type byte `0x08` with a
20-zero-byte program hash).  The JS engine truncates the 40-bit
polynomial arithmetic to 32 bits (`c >>> 35` shifts by 3, the constants
and mask lose their top bits), so the produced groups are not a BCH
checksum. -/
theorem checksum_invariant_broken :
    convertBits (8 :: List.replicate 20 0) 8 5 true = some (1 :: List.replicate 33 0) ∧
    specPolyMod (hrpExpand "bitcoincash" ++ (1 :: List.replicate 33 0) ++
      calculateChecksum "bitcoincash" (1 :: List.replicate 33 0)) ≠ 0 ∧
    polyMod (hrpExpand "bitcoincash" ++ (1 :: List.replicate 33 0) ++
      calculateChecksum "bitcoincash" (1 :: List.replicate 33 0)) ≠ 0 :=
  ⟨by decide, by decide, by decide⟩

/-- In contrast, the spec-modelled 40-bit checksum does satisfy the
decode-side invariant on the same payload. -/
theorem specChecksum_validates_concrete :
    specPolyMod (hrpExpand "bitcoincash" ++ (1 :: List.replicate 33 0) ++
      specChecksum "bitcoincash" (1 :: List.replicate 33 0)) = 0 := by decide

/-- C8: the concrete all-zero-secret vector: `SHA256(32 zero bytes)` is
the standard test value and the derived locking script hex is
`a820 ‖ hash ‖ 87`, 70 hex characters / 35 bytes. -/
theorem concrete_zero_vector :
    bytesToHex (sha256 (List.replicate 32 0)) =
      "66687aadf862bd776c8fc18b8e9f8e20089714856ee233b3902a591d0d5f2925" ∧
    (createQuantumVault (List.replicate 32 0)).map Vault.lockingScript =
      some "a82066687aadf862bd776c8fc18b8e9f8e20089714856ee233b3902a591d0d5f292587" ∧
    "a82066687aadf862bd776c8fc18b8e9f8e20089714856ee233b3902a591d0d5f292587" =
      "a820" ++ "66687aadf862bd776c8fc18b8e9f8e20089714856ee233b3902a591d0d5f2925" ++ "87" ∧
    ("a82066687aadf862bd776c8fc18b8e9f8e20089714856ee233b3902a591d0d5f292587" : String).length
      = 70 ∧
    (hexDecode "a82066687aadf862bd776c8fc18b8e9f8e20089714856ee233b3902a591d0d5f292587").length
      = 35 :=
  ⟨by decide, by decide, by decide, by decide, by decide⟩

/-- C4: for every 32-byte secret, the derived locking script is exactly
the 35 bytes `0xA8 0x20 ‖ SHA256(secret) ‖ 0x87`, and in the returned
vault the middle 32 bytes of the locking script equal the `secretHash`
field. -/
theorem createQuantumVault_lockingScript (s : List Nat) (hlen : s.length = 32)
    (hb : ∀ b ∈ s, b < 256) :
    ∃ v, createQuantumVault s = some v ∧
      hexDecode v.lockingScript = [0xa8, 0x20] ++ sha256 s ++ [0x87] ∧
      (hexDecode v.lockingScript).length = 35 ∧
      ((hexDecode v.lockingScript).drop 2).take 32 = hexDecode v.secretHash ∧
      hexDecode v.secretHash = sha256 s := by
  obtain ⟨p5, -, -, haddr⟩ :=
    toCashAddress_eq (ripemd160 (sha256 (hexDecode "a820" ++ sha256 s ++ hexDecode "87")))
      "p2sh" (ripemd160_mem_lt _)
  have hscript : ∀ b ∈ hexDecode "a820" ++ sha256 s ++ hexDecode "87", b < 256 := by
    intro b hbm
    rcases List.mem_append.mp hbm with h | h
    · rcases List.mem_append.mp h with h1 | h1
      · exact hexDecode_mem_lt _ b h1
      · exact sha256_mem_lt s b h1
    · exact hexDecode_mem_lt _ b h
  have hcr : createQuantumVault s = some
      { secret := bytesToHex s
        secretHash := bytesToHex (sha256 s)
        address := (p5 ++ calculateChecksum "bitcoincash" p5).foldl
          (fun st v => st ++ charsetAt v) ("bitcoincash" ++ ":")
        lockingScript := bytesToHex (hexDecode "a820" ++ sha256 s ++ hexDecode "87") } := by
    simp only [createQuantumVault, haddr, Option.map_some']
  have hLS : hexDecode (bytesToHex (hexDecode "a820" ++ sha256 s ++ hexDecode "87")) =
      hexDecode "a820" ++ sha256 s ++ hexDecode "87" := hexDecode_bytesToHex _ hscript
  have hSH : hexDecode (bytesToHex (sha256 s)) = sha256 s :=
    hexDecode_bytesToHex _ (sha256_mem_lt s)
  have ha820 : hexDecode "a820" = [0xa8, 0x20] := by decide
  have h87 : hexDecode "87" = [0x87] := by decide
  refine ⟨_, hcr, ?_, ?_, ?_, hSH⟩
  · show hexDecode (bytesToHex (hexDecode "a820" ++ sha256 s ++ hexDecode "87")) = _
    rw [hLS, ha820, h87]
  · show (hexDecode (bytesToHex (hexDecode "a820" ++ sha256 s ++ hexDecode "87"))).length = 35
    rw [hLS, ha820, h87]
    simp [List.length_append, sha256_length]
  · show ((hexDecode (bytesToHex (hexDecode "a820" ++ sha256 s ++ hexDecode "87"))).drop 2).take 32
        = hexDecode (bytesToHex (sha256 s))
    rw [hLS, hSH, ha820, h87, List.append_assoc]
    rw [show (2:Nat) = [(0xa8:Nat), 0x20].length from rfl, List.drop_left]
    rw [← sha256_length s, List.take_left]

/-- Concrete instantiation of `createQuantumVault_lockingScript` at the
all-zero secret. -/
theorem createQuantumVault_lockingScript_witness :
    ∃ v, createQuantumVault (List.replicate 32 0) = some v ∧
      hexDecode v.lockingScript = [0xa8, 0x20] ++ sha256 (List.replicate 32 0) ++ [0x87] ∧
      (hexDecode v.lockingScript).length = 35 ∧
      ((hexDecode v.lockingScript).drop 2).take 32 = hexDecode v.secretHash ∧
      hexDecode v.secretHash = sha256 (List.replicate 32 0) :=
  createQuantumVault_lockingScript (List.replicate 32 0) (by decide) (by decide)

/-- C6: `toCashAddress` maps the address type to its tag byte (`0x08` for
`p2sh`, `0x00` otherwise), forms the 21-byte payload, repacks it 8→5 with
padding, appends the 8 checksum groups, maps every group through the
fixed alphabet and returns `prefix ':' chars`. -/
theorem addressCodec_encode_pipeline (h160 : List Nat) (hlen : h160.length = 20)
    (hb : ∀ b ∈ h160, b < 256) (ty : String) :
    ∃ p5,
      convertBits ((if ty = "p2sh" then 0x08 else 0x00) :: h160) 8 5 true = some p5 ∧
      ((if ty = "p2sh" then 0x08 else 0x00) :: h160).length = 21 ∧
      (calculateChecksum "bitcoincash" p5).length = 8 ∧
      toCashAddress h160 ty =
        some ("bitcoincash:" ++ String.mk ((p5 ++ calculateChecksum "bitcoincash" p5).map
          fun v => CHARSET.getD v 'q')) := by
  obtain ⟨p5, hp5, hmem, haddr⟩ := toCashAddress_eq h160 ty hb
  refine ⟨p5, hp5, by simp [hlen], calculateChecksum_length _ _, ?_⟩
  rw [haddr]
  have hall : ∀ v ∈ p5 ++ calculateChecksum "bitcoincash" p5, v < 32 := by
    intro v hv
    rcases List.mem_append.mp hv with h | h
    · exact hmem v h
    · exact calculateChecksum_mem_lt _ _ v h
  have h0 : ("bitcoincash" ++ ":") = String.mk ("bitcoincash:".data) := by decide
  rw [h0, foldl_charsetAt _ hall]
  rfl

/-- Concrete instantiation of `addressCodec_encode_pipeline` for both
address types at the zero program hash. -/
theorem addressCodec_encode_pipeline_witness :
    (∃ p5,
      convertBits ((if "p2sh" = "p2sh" then 0x08 else 0x00) :: List.replicate 20 0) 8 5 true
        = some p5 ∧
      ((if "p2sh" = "p2sh" then 0x08 else 0x00) :: List.replicate 20 0).length = 21 ∧
      (calculateChecksum "bitcoincash" p5).length = 8 ∧
      toCashAddress (List.replicate 20 0) "p2sh" =
        some ("bitcoincash:" ++ String.mk ((p5 ++ calculateChecksum "bitcoincash" p5).map
          fun v => CHARSET.getD v 'q'))) ∧
    (∃ p5,
      convertBits ((if "p2pkh" = "p2sh" then 0x08 else 0x00) :: List.replicate 20 0) 8 5 true
        = some p5 ∧
      ((if "p2pkh" = "p2sh" then 0x08 else 0x00) :: List.replicate 20 0).length = 21 ∧
      (calculateChecksum "bitcoincash" p5).length = 8 ∧
      toCashAddress (List.replicate 20 0) "p2pkh" =
        some ("bitcoincash:" ++ String.mk ((p5 ++ calculateChecksum "bitcoincash" p5).map
          fun v => CHARSET.getD v 'q'))) :=
  ⟨addressCodec_encode_pipeline (List.replicate 20 0) (by decide) (by decide) "p2sh",
   addressCodec_encode_pipeline (List.replicate 20 0) (by decide) (by decide) "p2pkh"⟩

/-- C5: the 8→5 padded repack followed by the 5→8 unpadded repack
restores every byte sequence exactly (nothing is dropped: the claim's
"at most one trailing zero byte removed" is realised with zero bytes
removed). -/
theorem repack_roundtrip (b : List Nat) (hb : ∀ v ∈ b, v < 256) (hlen1 : 1 ≤ b.length)
    (hlen2 : b.length ≤ 255) :
    ∃ e, convertBits b 8 5 true = some e ∧ convertBits e 5 8 false = some b := by
  have hb8 : ∀ v ∈ b, v < 2 ^ 8 := by
    intro v hv
    calc v < 256 := hb v hv
    _ = 2 ^ 8 := by norm_num
  have hE := convertBits_spec b 8 5 true (by norm_num) (by norm_num) (by norm_num) hb8
  rw [if_pos rfl] at hE
  set n := b.length with hn
  set N := streamVal 8 b with hN
  set pa := (5 - 8 * n % 5) % 5 with hpa
  set m := (8 * n + pa) / 5 with hm
  have hpalt : pa < 5 := Nat.mod_lt _ (by norm_num)
  have h5m : 5 * m = 8 * n + pa := by
    have hx := Nat.div_add_mod (8 * n) 5
    rcases Nat.eq_zero_or_pos (8 * n % 5) with h0 | hpos
    · have hpa0 : pa = 0 := by rw [hpa, h0]
      have hsum : 8 * n + pa = 5 * (8 * n / 5) := by omega
      rw [hm, hsum, Nat.mul_div_cancel_left _ (by norm_num)]
    · have hpa' : pa = 5 - 8 * n % 5 := by
        rw [hpa]
        apply Nat.mod_eq_of_lt
        omega
      have hsum : 8 * n + pa = 5 * (8 * n / 5 + 1) := by
        have h5 : (5:Nat) * (8 * n / 5 + 1) = 5 * (8 * n / 5) + 5 := by ring
        omega
      rw [hm, hsum, Nat.mul_div_cancel_left _ (by norm_num)]
  refine ⟨_, hE, ?_⟩
  have hmem : ∀ v ∈ chunksBE 5 (N * 2 ^ pa) m, v < 2 ^ 5 := chunksBE_mem_lt 5 _ m
  have hD := convertBits_spec (chunksBE 5 (N * 2 ^ pa) m) 5 8 false (by norm_num) (by norm_num)
    (by norm_num) hmem
  rw [if_neg Bool.false_ne_true] at hD
  have hlen : (chunksBE 5 (N * 2 ^ pa) m).length = m := chunksBE_length 5 _ m
  have hNlt : N < 2 ^ (8 * n) := streamVal_lt 8 b hb8
  have hsv : streamVal 5 (chunksBE 5 (N * 2 ^ pa) m) = N * 2 ^ pa := by
    rw [streamVal_chunksBE]
    apply Nat.mod_eq_of_lt
    calc N * 2 ^ pa < 2 ^ (8 * n) * 2 ^ pa :=
        Nat.mul_lt_mul_of_lt_of_le hNlt (Nat.le_refl _) (Nat.pos_pow_of_pos _ (by norm_num))
    _ = 2 ^ (8 * n + pa) := (pow_add 2 _ _).symm
    _ = 2 ^ (m * 5) := by congr 1; omega
  rw [hlen, hsv] at hD
  have hrmod : 5 * m % 8 = pa := by omega
  rw [hrmod] at hD
  have hcond : ¬(5 ≤ pa ∨ N * 2 ^ pa % 2 ^ pa ≠ 0) := by
    push_neg
    exact ⟨by omega, Nat.mul_mod_left N (2 ^ pa)⟩
  rw [if_neg hcond] at hD
  rw [hD]
  congr 1
  have hdiv : 5 * m / 8 = n := by omega
  rw [hdiv, Nat.mul_div_cancel _ (Nat.pos_pow_of_pos _ (by norm_num)), hN, hn]
  exact chunksBE_streamVal 8 b hb8

/-- Concrete instantiation of `repack_roundtrip`. -/
theorem repack_roundtrip_witness :
    ∃ e, convertBits [171, 5, 204] 8 5 true = some e ∧
      convertBits e 5 8 false = some [171, 5, 204] :=
  repack_roundtrip [171, 5, 204] (by decide) (by decide) (by decide)

/-- If any input value fails the JS range guard (its 32-bit pattern is at
least `2 ^ fromBits`), the whole conversion returns `null`. -/
theorem convertBits_go_none_of_overflow (f t : Nat) (pad : Bool) (hf : 0 < f) (hf31 : f ≤ 31) :
    ∀ (data : List Nat) (acc bits : Nat) (ret : List Nat),
      (∃ v ∈ data, v < 2 ^ 32 ∧ 2 ^ f ≤ v) →
      convertBits.go f t pad data acc bits ret = none := by
  intro data
  induction data with
  | nil =>
    rintro acc bits ret ⟨v, hv, -⟩
    simp at hv
  | cons x rest ih =>
    rintro acc bits ret ⟨v, hv, h32, hge⟩
    by_cases hg : jsShrS x f = 0
    · rcases List.mem_cons.mp hv with rfl | hmem
      · have := (jsShrS_eq_zero_iff v f h32 hf hf31).1 hg
        omega
      · rw [convertBits_go_cons_ok f t pad x rest acc bits ret hg]
        exact ih _ _ _ ⟨v, hmem, h32, hge⟩
    · show (if jsShrS x f ≠ 0 then none else _) = none
      rw [if_pos hg]

/-- C7 counterexample: the value `2^32`, which is at least `2^fromBits`,
is accepted rather than rejected — JS bitwise operators truncate it to
its 32-bit pattern `0` before the guard. -/
theorem repack_overflow_counterexample :
    (2:Nat) ^ 8 ≤ 4294967296 ∧ convertBits [4294967296] 8 5 true = some [0, 0] :=
  ⟨by norm_num, by decide⟩

/-- C7 (amended): for input values below `2^32` (and the in-range widths,
covering the program's 8↔5 uses), `repack` fails exactly when some value
is at least `2 ^ fromBits`; with `pad = false` it additionally fails
exactly when the leftover bit count is at least `fromBits` or the
leftover bits are non-zero, and returns normally otherwise. -/
theorem repack_error_conditions (f t : Nat) (data : List Nat) (hf : 0 < f) (ht : 0 < t)
    (hft : f + t ≤ 32) (h32 : ∀ v ∈ data, v < 2 ^ 32) :
    (convertBits data f t true = none ↔ ∃ v ∈ data, 2 ^ f ≤ v) ∧
    (convertBits data f t false = none ↔
      (∃ v ∈ data, 2 ^ f ≤ v) ∨
      ((∀ v ∈ data, v < 2 ^ f) ∧
        (f ≤ f * data.length % t ∨ streamVal f data % 2 ^ (f * data.length % t) ≠ 0))) := by
  by_cases hall : ∀ v ∈ data, v < 2 ^ f
  · have hnex : ¬ ∃ v ∈ data, 2 ^ f ≤ v := by
      push_neg
      exact hall
    constructor
    · rw [convertBits_spec data f t true hf ht hft hall, if_pos rfl]
      constructor
      · intro hx
        exact (Option.some_ne_none _ hx).elim
      · intro hx
        exact absurd hx hnex
    · rw [convertBits_spec data f t false hf ht hft hall, if_neg Bool.false_ne_true]
      by_cases hc : f ≤ f * data.length % t ∨ streamVal f data % 2 ^ (f * data.length % t) ≠ 0
      · rw [if_pos hc]
        exact ⟨fun _ => Or.inr ⟨hall, hc⟩, fun _ => rfl⟩
      · rw [if_neg hc]
        constructor
        · intro hx
          exact (Option.some_ne_none _ hx).elim
        · rintro (hx | ⟨-, hx⟩)
          · exact absurd hx hnex
          · exact absurd hx hc
  · push_neg at hall
    obtain ⟨v, hvmem, hvge⟩ := hall
    have hofl : ∃ w ∈ data, w < 2 ^ 32 ∧ 2 ^ f ≤ w := ⟨v, hvmem, h32 v hvmem, hvge⟩
    have h1 : convertBits data f t true = none :=
      convertBits_go_none_of_overflow f t true hf (by omega) data 0 0 [] hofl
    have h2 : convertBits data f t false = none :=
      convertBits_go_none_of_overflow f t false hf (by omega) data 0 0 [] hofl
    rw [h1, h2]
    exact ⟨⟨fun _ => ⟨v, hvmem, hvge⟩, fun _ => rfl⟩,
      ⟨fun _ => Or.inl ⟨v, hvmem, hvge⟩, fun _ => rfl⟩⟩

/-- Concrete instantiation of `repack_error_conditions`: the value 300
overflows an 8-bit group and is rejected, with either padding mode. -/
theorem repack_error_conditions_witness :
    (convertBits [300] 8 5 true = none ↔ ∃ v ∈ [(300:Nat)], 2 ^ 8 ≤ v) ∧
    (convertBits [300] 8 5 false = none ↔
      (∃ v ∈ [(300:Nat)], 2 ^ 8 ≤ v) ∨
      ((∀ v ∈ [(300:Nat)], v < 2 ^ 8) ∧
        (8 ≤ 8 * [(300:Nat)].length % 5 ∨
          streamVal 8 [300] % 2 ^ (8 * [(300:Nat)].length % 5) ≠ 0))) :=
  repack_error_conditions 8 5 [300] (by norm_num) (by norm_num) (by norm_num) (by decide)
